import Mathlib

/-!
Verification of the drift-detection tool `hashdiff.py`.

The program compares two filesystem trees (or two files) by SHA-256 digests:
  * compute_file_hash : streams a file in 8192-byte chunks through one hash.
  * compute_dir_hash  : iterates sorted(directory.rglob("*")), skips paths with
    an ignored directory segment, and for every regular file whose final name is
    not ignored absorbs the UTF-8 bytes of the relative path followed by the
    file contents into one running hash.
  * file_by_file_hash : builds a relative-path index of each tree with the same
    filter and classifies each path in the union of the key sets as added,
    removed or modified.
  * main : top-level driver; in directory mode it runs the granular comparison
    only when the two tree digests differ and the verbose flag is set, and the
    per-file diff renderer only when additionally the diff flag is set.

The embedding is shallow: a filesystem entry is a relative path (a string with
"/" separators, exactly the Python str(relative_path)), a regular-file marker
and the byte contents.  The cryptographic hash is kept abstract: every digest
function takes the finishing hash `h : List Nat → List Nat` as a parameter and
applies it to the exact byte stream the Python code feeds into hashlib, so
equalities of digests are proved for every hash function and inequalities of
digests are stated under injectivity of `h` on the streams involved.

Python version note: `sorted` on `pathlib.Path` orders by the path string
(code-point lexicographic); all entries share the root prefix, so sorting the
absolute paths coincides with sorting the relative path strings, which is what
`pathLe` implements.
-/

namespace HashDiff

/-- The `ignore_dirs` constant of `compute_dir_hash` / `file_by_file_hash`. -/
def ignore_dirs : List String := [".git"]

/-- The `ignore_files` constant of `compute_dir_hash` / `file_by_file_hash`. -/
def ignore_files : List String := [".gitignore", "lazy-lock.json"]

/-- Split a list of characters at every '/' (accumulator holds the current
segment reversed), modelling `pathlib`'s decomposition of a relative path
string into its parts. -/
def splitCharsAux : List Char → List Char → List (List Char)
  | [], acc => [acc.reverse]
  | c :: cs, acc => if c = '/' then acc.reverse :: splitCharsAux cs [] else splitCharsAux cs (c :: acc)

/-- The parts of a relative path string, as in `PurePath.parts`. -/
def splitParts (s : String) : List String :=
  (splitCharsAux s.data []).map List.asString

/-- Model of `Path.name`: the final component of a relative path. -/
def lastPart (s : String) : String :=
  (splitParts s).getLastD ""

/-- UTF-8 encoding of a single code point (its value as a `Nat`). -/
def utf8EncodeCharNat (n : Nat) : List Nat :=
  if n < 128 then [n]
  else if n < 2048 then [192 + n / 64, 128 + n % 64]
  else if n < 65536 then [224 + n / 4096, 128 + n / 64 % 64, 128 + n % 64]
  else [240 + n / 262144, 128 + n / 4096 % 64, 128 + n / 64 % 64, 128 + n % 64]

/-- Model of `str(relative_path).encode("utf-8")`: the UTF-8 bytes of a path string. -/
def utf8Bytes (s : String) : List Nat :=
  s.data.foldr (fun c acc => utf8EncodeCharNat c.toNat ++ acc) []

/-- Code-point lexicographic comparison of character lists (the order Python
uses on strings, hence on `pathlib.Path` values with a common root). -/
def charListLe : List Char → List Char → Bool
  | [], _ => true
  | _ :: _, [] => false
  | a :: as, b :: bs =>
    if a.toNat < b.toNat then true
    else if b.toNat < a.toNat then false
    else charListLe as bs

/-- Lexicographic order on path strings. -/
def pathLe (a b : String) : Bool := charListLe a.data b.data

/-- Greedy decomposition of a byte list into chunks of size `n`, with explicit
fuel (the list length bounds the number of chunks); models the Python loop
`while chunk := f.read(8192)`. -/
def chunksOfAux : Nat → Nat → List Nat → List (List Nat)
  | 0, _, _ => []
  | _ + 1, _, [] => []
  | fuel + 1, n, x :: xs => (x :: xs).take n :: chunksOfAux fuel n ((x :: xs).drop n)

/-- The chunks of size `n` of a byte list. -/
def chunksOf (n : Nat) (l : List Nat) : List (List Nat) :=
  chunksOfAux l.length n l

/-- Feeding the chunked contents into the running hash: each chunk is appended
to the bytes absorbed so far. -/
def absorbChunks (acc content : List Nat) : List Nat :=
  (chunksOf 8192 content).foldl (fun a c => a ++ c) acc

/-- A filesystem entry below a comparison root: its relative path (string with
"/" separators), whether it is a regular file, and its payload (`List Nat` for
readable byte contents, `Option (List Nat)` in the fallible model where `none`
is a file that cannot be opened or read). -/
structure Entry (γ : Type) where
  path : String
  isFile : Bool
  content : γ
deriving DecidableEq

/-- Model of `any(part in ignore_dirs for part in file.parts)`: note that `file` is the
root-prefixed path produced by `directory.rglob`, so the parts of the root
itself participate in the check. -/
def hasIgnoredDir (parts : List String) : Bool :=
  parts.any (fun part => ignore_dirs.contains part)

/-- Model of `file.name in ignore_files` for a relative path. -/
def nameIgnored (p : String) : Bool :=
  ignore_files.contains (lastPart p)

/-- The entry survives both filters of the enumeration loops: no ignored
directory segment anywhere in the root-prefixed path, a regular file, and a
final name that is not ignored. -/
def includeEntry {γ : Type} (root : List String) (e : Entry γ) : Bool :=
  !hasIgnoredDir (root ++ splitParts e.path) && (e.isFile && !nameIgnored e.path)

/-- Comparison of entries by their relative path, the order of
`sorted(directory.rglob("*"))` restricted to a common root. -/
def entryLE {γ : Type} (a b : Entry γ) : Prop := pathLe a.path b.path = true

instance {γ : Type} : DecidableRel (entryLE (γ := γ)) :=
  fun a b => decEq (pathLe a.path b.path) true

/-- Model of `sorted(directory.rglob("*"))`. -/
def sortEntries {γ : Type} (es : List (Entry γ)) : List (Entry γ) :=
  List.insertionSort entryLE es

/-- Model of `compute_file_hash`: the finalized digest of one file's contents, absorbed
in 8192-byte chunks; `h` is the finishing hash function. -/
def compute_file_hash (h : List Nat → List Nat) (content : List Nat) : List Nat :=
  h (absorbChunks [] content)

/-- The byte stream `compute_dir_hash` feeds into its running hasher: the
sorted enumeration, the two skip conditions of the loop body, and for each
surviving file the UTF-8 bytes of the relative path followed by the chunked
contents. -/
def dirHashStream (root : List String) (es : List (Entry (List Nat))) : List Nat :=
  (sortEntries es).foldl
    (fun acc e =>
      if hasIgnoredDir (root ++ splitParts e.path) then acc
      else if e.isFile && !nameIgnored e.path then
        absorbChunks (acc ++ utf8Bytes e.path) e.content
      else acc)
    []

/-- Model of `compute_dir_hash`: the finalized tree digest. -/
def compute_dir_hash (h : List Nat → List Nat) (root : List String)
    (es : List (Entry (List Nat))) : List Nat :=
  h (dirHashStream root es)

/-- Modelled from the spec (§4.1 PathFilter): inclusion decided on the
relative path alone — no directory-name segment of the relative path is
ignored and the final segment is not an ignored file name. -/
def specInclude (p : String) : Bool :=
  !hasIgnoredDir (splitParts p) && !nameIgnored p

/-- Modelled from the spec (§4.3 TreeDigest, and the wording of the tree-digest
claim): take the regular files surviving the ignore filter, order them
lexicographically by relative path, and concatenate, for each file in that
order, the UTF-8 bytes of its relative path followed by its byte contents. -/
def specTreeStream (es : List (Entry (List Nat))) : List Nat :=
  ((sortEntries (es.filter (fun e => e.isFile && specInclude e.path))).map
    (fun e => utf8Bytes e.path ++ e.content)).flatten

/-- Model of `archive_files` / `active_files`: the index from relative path to file
contents built by `file_by_file_hash`, in enumeration order. -/
def buildIndex (root : List String) (es : List (Entry (List Nat))) :
    List (String × List Nat) :=
  (sortEntries es).foldl
    (fun acc e =>
      if hasIgnoredDir (root ++ splitParts e.path) then acc
      else if e.isFile && !nameIgnored e.path then acc ++ [(e.path, e.content)]
      else acc)
    []

/-- Dictionary lookup by relative path. -/
def lookupIdx (p : String) : List (String × List Nat) → Option (List Nat)
  | [] => none
  | (q, c) :: rest => if p = q then some c else lookupIdx p rest

/-- The key set of an index. -/
def indexKeys (idx : List (String × List Nat)) : List String :=
  idx.map Prod.fst

/-- Model of `all_paths = set(archive_files) | set(active_files)`. -/
def allPaths (aIdx bIdx : List (String × List Nat)) : List String :=
  (indexKeys aIdx ++ indexKeys bIdx).dedup

/-- The three drift categories printed by `file_by_file_hash`. -/
inductive DriftCat where
  | added
  | removed
  | modified
deriving DecidableEq

/-- The loop body of `file_by_file_hash` for one path of `all_paths`:
`New file` when the path is missing from the archive index, `Deleted file`
when missing from the active index, `Modified file` when both per-file digests
exist and differ, and no report otherwise. -/
def classify (h : List Nat → List Nat) (aIdx bIdx : List (String × List Nat))
    (p : String) : Option DriftCat :=
  match lookupIdx p aIdx with
  | none => some DriftCat.added
  | some ca =>
    match lookupIdx p bIdx with
    | none => some DriftCat.removed
    | some cb =>
      if compute_file_hash h ca = compute_file_hash h cb then none
      else some DriftCat.modified

/-- Model of `file_by_file_hash archive active`: the classified drift report, one entry
per reported path. -/
def file_by_file_events (h : List Nat → List Nat)
    (rootA : List String) (esA : List (Entry (List Nat)))
    (rootB : List String) (esB : List (Entry (List Nat))) :
    List (String × DriftCat) :=
  (allPaths (buildIndex rootA esA) (buildIndex rootB esB)).filterMap
    (fun p =>
      (classify h (buildIndex rootA esA) (buildIndex rootB esB) p).map
        (fun cat => (p, cat)))

/-- The paths for which `file_by_file_hash` invokes `print_diff`: the modified
paths, and only when its `diff` parameter is set. -/
def file_by_file_renders (h : List Nat → List Nat) (diffFlag : Bool)
    (rootA : List String) (esA : List (Entry (List Nat)))
    (rootB : List String) (esB : List (Entry (List Nat))) : List String :=
  (allPaths (buildIndex rootA esA) (buildIndex rootB esB)).filterMap
    (fun p =>
      match classify h (buildIndex rootA esA) (buildIndex rootB esB) p with
      | some DriftCat.modified => if diffFlag then some p else none
      | _ => none)

/-- The directory branch of `main`: when the two tree digests are equal nothing
granular runs; otherwise `file_by_file_hash source target diff` runs only under
the verbose flag, so per-file diffs are rendered exactly for the paths below. -/
def main_dir_renders (h : List Nat → List Nat) (verbose diffFlag : Bool)
    (rootA : List String) (esA : List (Entry (List Nat)))
    (rootB : List String) (esB : List (Entry (List Nat))) : List String :=
  if compute_dir_hash h rootA esA = compute_dir_hash h rootB esB then []
  else if verbose then file_by_file_renders h diffFlag rootA esA rootB esB
  else []

/-- Fallible `compute_file_hash`: opening or reading the file raises `IOError`
(modelled as `Except.error ()`), uncaught by the program, so no digest is
produced for an unreadable file. -/
def compute_file_hashE (h : List Nat → List Nat) (c : Option (List Nat)) :
    Except Unit (List Nat) :=
  match c with
  | none => Except.error ()
  | some bytes => Except.ok (h (absorbChunks [] bytes))

/-- Fallible absorption loop of `compute_dir_hash`: the first unreadable
included file raises, aborting the whole enumeration (later files are not
read and no digest is finalized). -/
def dirAbsorbE (root : List String) :
    List (Entry (Option (List Nat))) → List Nat → Except Unit (List Nat)
  | [], acc => Except.ok acc
  | e :: rest, acc =>
    if hasIgnoredDir (root ++ splitParts e.path) then dirAbsorbE root rest acc
    else if e.isFile && !nameIgnored e.path then
      match e.content with
      | none => Except.error ()
      | some c => dirAbsorbE root rest (absorbChunks (acc ++ utf8Bytes e.path) c)
    else dirAbsorbE root rest acc

/-- Fallible `compute_dir_hash`. -/
def compute_dir_hashE (h : List Nat → List Nat) (root : List String)
    (es : List (Entry (Option (List Nat)))) : Except Unit (List Nat) :=
  (dirAbsorbE root (sortEntries es) []).map h

/-! ### Lemmas about chunking and the absorbed byte stream -/

theorem foldl_append_eq {α : Type} (g : α → List Nat) :
    ∀ (l : List α) (acc : List Nat),
      l.foldl (fun a e => a ++ g e) acc = acc ++ (l.map g).flatten
  | [], acc => by simp
  | e :: l, acc => by
    simp [foldl_append_eq g l, List.append_assoc]

theorem flatten_chunksOfAux :
    ∀ (fuel n : Nat) (l : List Nat), n ≠ 0 → l.length ≤ fuel →
      (chunksOfAux fuel n l).flatten = l
  | 0, _, l, _, hlen => by
    cases l with
    | nil => rfl
    | cons x xs => simp at hlen
  | _ + 1, _, [], _, _ => rfl
  | fuel + 1, n, x :: xs, hn, hlen => by
    have hdrop : ((x :: xs).drop n).length ≤ fuel := by
      simp only [List.length_drop, List.length_cons]
      simp only [List.length_cons] at hlen
      omega
    simp [chunksOfAux, flatten_chunksOfAux fuel n _ hn hdrop]

/-- Absorbing a file's contents chunk by chunk appends exactly the contents. -/
theorem absorbChunks_eq (acc c : List Nat) : absorbChunks acc c = acc ++ c := by
  unfold absorbChunks chunksOf
  rw [foldl_append_eq (fun x => x)]
  have : ((chunksOfAux c.length 8192 c).map fun x => x) = chunksOfAux c.length 8192 c :=
    List.map_id' _
  rw [this, flatten_chunksOfAux _ _ _ (by omega) (le_refl _)]

theorem flatten_map_ite {α : Type} (p : α → Bool) (g : α → List Nat) :
    ∀ l : List α,
      (l.map (fun e => if p e then g e else [])).flatten = ((l.filter p).map g).flatten
  | [] => rfl
  | e :: l => by
    by_cases h : p e <;> simp [h, flatten_map_ite p g l]

/-- The loop body of `compute_dir_hash` appends either the path-plus-contents
record of an included file or nothing. -/
theorem dirStep_eq (root : List String) (acc : List Nat) (e : Entry (List Nat)) :
    (if hasIgnoredDir (root ++ splitParts e.path) then acc
     else if e.isFile && !nameIgnored e.path then
       absorbChunks (acc ++ utf8Bytes e.path) e.content
     else acc)
    = acc ++ (if includeEntry root e then utf8Bytes e.path ++ e.content else []) := by
  unfold includeEntry
  by_cases h1 : hasIgnoredDir (root ++ splitParts e.path) <;>
    by_cases h2 : (e.isFile && !nameIgnored e.path) <;>
      simp [h1, h2, absorbChunks_eq, List.append_assoc]

/-- The byte stream of `compute_dir_hash` is the concatenation of the
path-plus-contents records of the included files, in sorted enumeration
order. -/
theorem dirHashStream_eq (root : List String) (es : List (Entry (List Nat))) :
    dirHashStream root es =
      (((sortEntries es).filter (includeEntry root)).map
        (fun e => utf8Bytes e.path ++ e.content)).flatten := by
  unfold dirHashStream
  have hstep :
      (fun (acc : List Nat) (e : Entry (List Nat)) =>
        if hasIgnoredDir (root ++ splitParts e.path) then acc
        else if e.isFile && !nameIgnored e.path then
          absorbChunks (acc ++ utf8Bytes e.path) e.content
        else acc)
      = fun acc e =>
          acc ++ (if includeEntry root e then utf8Bytes e.path ++ e.content else []) :=
    funext fun acc => funext fun e => dirStep_eq root acc e
  rw [hstep, foldl_append_eq, List.nil_append, flatten_map_ite]

/-! ### The path order: totality, transitivity, antisymmetry -/

theorem char_eq_of_toNat {a b : Char} (h : a.toNat = b.toNat) : a = b := by
  have ha := Char.ofNat_toNat a
  rw [h, Char.ofNat_toNat] at ha
  exact ha.symm

theorem charListLe_total : ∀ (a b : List Char),
    charListLe a b = true ∨ charListLe b a = true
  | [], _ => Or.inl rfl
  | _ :: _, [] => Or.inr rfl
  | a :: as, b :: bs => by
    simp only [charListLe]
    rcases Nat.lt_trichotomy a.toNat b.toNat with h | h | h
    · left; simp [h]
    · have h1 : ¬ a.toNat < b.toNat := by omega
      have h2 : ¬ b.toNat < a.toNat := by omega
      simpa [h1, h2] using charListLe_total as bs
    · right
      simp [h, show ¬ a.toNat < b.toNat by omega]

theorem charListLe_trans : ∀ (a b c : List Char),
    charListLe a b = true → charListLe b c = true → charListLe a c = true
  | [], _, _, _, _ => rfl
  | _ :: _, [], _, h1, _ => by simp [charListLe] at h1
  | _ :: _, _ :: _, [], _, h2 => by simp [charListLe] at h2
  | a :: as, b :: bs, c :: cs, h1, h2 => by
    simp only [charListLe] at h1 h2 ⊢
    by_cases hab : a.toNat < b.toNat
    · by_cases hbc : b.toNat < c.toNat
      · simp [show a.toNat < c.toNat by omega]
      · by_cases hcb : c.toNat < b.toNat
        · simp [hbc, hcb] at h2
        · simp [show a.toNat < c.toNat by omega]
    · by_cases hba : b.toNat < a.toNat
      · simp [hab, hba] at h1
      · simp only [hab, hba, if_false] at h1
        by_cases hbc : b.toNat < c.toNat
        · simp [show a.toNat < c.toNat by omega]
        · by_cases hcb : c.toNat < b.toNat
          · simp [hbc, hcb] at h2
          · simp only [hbc, hcb, if_false] at h2
            have hac1 : ¬ a.toNat < c.toNat := by omega
            have hac2 : ¬ c.toNat < a.toNat := by omega
            simp only [hac1, hac2, if_false]
            exact charListLe_trans as bs cs h1 h2

theorem charListLe_antisymm : ∀ (a b : List Char),
    charListLe a b = true → charListLe b a = true → a = b
  | [], [], _, _ => rfl
  | [], _ :: _, _, h2 => by simp [charListLe] at h2
  | _ :: _, [], h1, _ => by simp [charListLe] at h1
  | a :: as, b :: bs, h1, h2 => by
    simp only [charListLe] at h1 h2
    by_cases hab : a.toNat < b.toNat
    · have hba : ¬ b.toNat < a.toNat := by omega
      simp [hab, hba] at h2
    · by_cases hba : b.toNat < a.toNat
      · simp [hab, hba] at h1
      · simp only [hab, hba, if_false] at h1 h2
        have hchar : a = b := char_eq_of_toNat (by omega)
        rw [hchar, charListLe_antisymm as bs h1 h2]

theorem pathLe_total (a b : String) : pathLe a b = true ∨ pathLe b a = true :=
  charListLe_total a.data b.data

theorem pathLe_trans {a b c : String} (h1 : pathLe a b = true) (h2 : pathLe b c = true) :
    pathLe a c = true :=
  charListLe_trans a.data b.data c.data h1 h2

theorem pathLe_antisymm {a b : String} (h1 : pathLe a b = true) (h2 : pathLe b a = true) :
    a = b :=
  String.toList_inj.mp (charListLe_antisymm a.data b.data h1 h2)

instance {γ : Type} : IsTotal (Entry γ) entryLE :=
  ⟨fun a b => pathLe_total a.path b.path⟩

instance {γ : Type} : IsTrans (Entry γ) entryLE :=
  ⟨fun _ _ _ h1 h2 => pathLe_trans h1 h2⟩

/-! ### Sorting commutes with filtering -/

theorem orderedInsert_of_forall {α : Type} {r : α → α → Prop} [DecidableRel r] (a : α) :
    ∀ (l : List α), (∀ x ∈ l, r a x) → l.orderedInsert r a = a :: l
  | [], _ => rfl
  | b :: l, h => by
    have hb : r a b := h b (List.mem_cons_self b l)
    simp [List.orderedInsert, hb]

theorem filter_orderedInsert {α : Type} {r : α → α → Prop} [DecidableRel r] [IsTrans α r]
    (p : α → Bool) (a : α) :
    ∀ (l : List α), l.Sorted r →
      (l.orderedInsert r a).filter p =
        if p a then (l.filter p).orderedInsert r a else l.filter p
  | [], _ => by
    by_cases h : p a <;> simp [List.orderedInsert, h]
  | b :: l, hs => by
    by_cases hab : r a b
    · rw [List.orderedInsert_of_le r _ hab]
      by_cases hpa : p a <;> by_cases hpb : p b
      · simp [List.filter, hpa, hpb, List.orderedInsert, hab]
      · have hall : ∀ x ∈ l.filter p, r a x := by
          intro x hx
          have hxl : x ∈ l := List.mem_of_mem_filter hx
          exact Trans.trans hab (List.rel_of_sorted_cons hs x hxl)
        rw [List.filter_cons_of_pos hpa, List.filter_cons_of_neg hpb, if_pos hpa,
          orderedInsert_of_forall a _ hall]
      · simp [List.filter, hpa, hpb]
      · simp [List.filter, hpa, hpb]
    · have heq : (b :: l).orderedInsert r a = b :: l.orderedInsert r a := by
        simp [List.orderedInsert, hab]
      rw [heq]
      have hIH := filter_orderedInsert p a l hs.of_cons
      by_cases hpa : p a <;> by_cases hpb : p b <;>
        simp [List.filter, hpa, hpb, hIH, List.orderedInsert, hab]

theorem filter_insertionSort {α : Type} {r : α → α → Prop} [DecidableRel r]
    [IsTotal α r] [IsTrans α r] (p : α → Bool) :
    ∀ l : List α, (List.insertionSort r l).filter p = List.insertionSort r (l.filter p)
  | [] => rfl
  | a :: l => by
    simp only [List.insertionSort]
    rw [filter_orderedInsert p a _ (List.sorted_insertionSort r l)]
    by_cases hpa : p a <;> simp [List.filter, hpa, filter_insertionSort p l]

/-- Sorting the enumeration and then filtering is filtering and then
sorting. -/
theorem sortEntries_filter {γ : Type} (p : Entry γ → Bool) (es : List (Entry γ)) :
    (sortEntries es).filter p = sortEntries (es.filter p) :=
  filter_insertionSort p es

/-! ### Sorted permutations with distinct paths are equal -/

theorem charListLe_refl : ∀ (a : List Char), charListLe a a = true
  | [] => rfl
  | a :: as => by
    simp only [charListLe]
    simp [charListLe_refl as]

theorem entryLE_refl {γ : Type} (a : Entry γ) : entryLE a a :=
  charListLe_refl a.path.data

theorem sorted_perm_nodup_eq {γ : Type} :
    ∀ (l1 l2 : List (Entry γ)), l1.Perm l2 → l1.Sorted entryLE → l2.Sorted entryLE →
      (l1.map Entry.path).Nodup → l1 = l2
  | [], l2, hp, _, _, _ => hp.symm.eq_nil.symm
  | a :: t1, l2, hp, hs1, hs2, hn => by
    cases l2 with
    | nil => exact (List.cons_ne_nil a t1 hp.eq_nil).elim
    | cons b t2 =>
      have hbmem : b ∈ a :: t1 := hp.mem_iff.mpr (List.mem_cons_self b t2)
      have hamem : a ∈ b :: t2 := hp.mem_iff.mp (List.mem_cons_self a t1)
      have hab : entryLE a b := by
        rcases List.mem_cons.mp hbmem with he | ht
        · rw [he]; exact entryLE_refl a
        · exact List.rel_of_sorted_cons hs1 b ht
      have hba : entryLE b a := by
        rcases List.mem_cons.mp hamem with he | ht
        · rw [he]; exact entryLE_refl b
        · exact List.rel_of_sorted_cons hs2 a ht
      have hpath : a.path = b.path := pathLe_antisymm hab hba
      have hhead : a = b := by
        by_contra hne
        have hbt1 : b ∈ t1 := by
          rcases List.mem_cons.mp hbmem with he | ht
          · exact absurd he.symm hne
          · exact ht
        have hmem : b.path ∈ t1.map Entry.path := List.mem_map_of_mem Entry.path hbt1
        rw [← hpath] at hmem
        exact (List.nodup_cons.mp hn).1 hmem
      subst hhead
      have ht : t1.Perm t2 := hp.cons_inv
      rw [sorted_perm_nodup_eq t1 t2 ht hs1.of_cons hs2.of_cons (List.nodup_cons.mp hn).2]

/-! ### Length of the tree-digest stream -/

theorem dirHashStream_length (root : List String) (es : List (Entry (List Nat))) :
    (dirHashStream root es).length =
      ((es.filter (includeEntry root)).map
        (fun e => (utf8Bytes e.path).length + e.content.length)).sum := by
  rw [dirHashStream_eq, List.length_flatten, List.map_map]
  have hfun : (List.length ∘ fun e : Entry (List Nat) => utf8Bytes e.path ++ e.content)
      = fun e => (utf8Bytes e.path).length + e.content.length := by
    funext e
    simp [Function.comp, List.length_append]
  rw [hfun]
  have hperm :
      ((sortEntries es).filter (includeEntry root)).Perm (es.filter (includeEntry root)) :=
    (List.perm_insertionSort entryLE es).filter _
  exact (hperm.map _).sum_eq

/-! ### Shape of the per-file index -/

theorem foldl_append_pair {α : Type} (g : α → List (String × List Nat)) :
    ∀ (l : List α) (acc : List (String × List Nat)),
      l.foldl (fun a e => a ++ g e) acc = acc ++ (l.map g).flatten
  | [], acc => by simp
  | e :: l, acc => by
    simp [foldl_append_pair g l, List.append_assoc]

theorem flatten_map_ite_pair {α : Type} (p : α → Bool) (g : α → List (String × List Nat)) :
    ∀ l : List α,
      (l.map (fun e => if p e then g e else [])).flatten = ((l.filter p).map g).flatten
  | [] => rfl
  | e :: l => by
    by_cases h : p e <;> simp [h, flatten_map_ite_pair p g l]

theorem flatten_map_singleton {α β : Type} (f : α → β) :
    ∀ l : List α, (l.map (fun e => [f e])).flatten = l.map f
  | [] => rfl
  | e :: l => by simp [flatten_map_singleton f l]

theorem indexStep_eq (root : List String) (acc : List (String × List Nat))
    (e : Entry (List Nat)) :
    (if hasIgnoredDir (root ++ splitParts e.path) then acc
     else if e.isFile && !nameIgnored e.path then acc ++ [(e.path, e.content)]
     else acc)
    = acc ++ (if includeEntry root e then [(e.path, e.content)] else []) := by
  unfold includeEntry
  by_cases h1 : hasIgnoredDir (root ++ splitParts e.path) <;>
    by_cases h2 : (e.isFile && !nameIgnored e.path) <;>
      simp [h1, h2]

theorem buildIndex_eq (root : List String) (es : List (Entry (List Nat))) :
    buildIndex root es =
      ((sortEntries es).filter (includeEntry root)).map (fun e => (e.path, e.content)) := by
  unfold buildIndex
  have hstep :
      (fun (acc : List (String × List Nat)) (e : Entry (List Nat)) =>
        if hasIgnoredDir (root ++ splitParts e.path) then acc
        else if e.isFile && !nameIgnored e.path then acc ++ [(e.path, e.content)]
        else acc)
      = fun acc e => acc ++ (if includeEntry root e then [(e.path, e.content)] else []) :=
    funext fun acc => funext fun e => indexStep_eq root acc e
  rw [hstep, foldl_append_pair, List.nil_append, flatten_map_ite_pair,
    flatten_map_singleton]

theorem includeEntry_isFile {γ : Type} {root : List String} {e : Entry γ}
    (h : includeEntry root e = true) : e.isFile = true := by
  unfold includeEntry at h
  rcases Bool.and_eq_true_iff.mp h with ⟨_, h2⟩
  exact (Bool.and_eq_true_iff.mp h2).1

/-- The keys of the index are exactly the relative paths of the included
entries. -/
theorem mem_indexKeys_iff (root : List String) (es : List (Entry (List Nat))) (p : String) :
    p ∈ indexKeys (buildIndex root es) ↔
      ∃ e ∈ es, e.path = p ∧ includeEntry root e = true := by
  rw [buildIndex_eq]
  unfold indexKeys
  rw [List.map_map]
  constructor
  · intro hmem
    rcases List.mem_map.mp hmem with ⟨e, hef, hep⟩
    rcases List.mem_filter.mp hef with ⟨hes, hinc⟩
    refine ⟨e, ?_, hep, hinc⟩
    exact (List.mem_insertionSort entryLE).mp hes
  · rintro ⟨e, hes, hep, hinc⟩
    refine List.mem_map.mpr ⟨e, List.mem_filter.mpr ⟨?_, hinc⟩, hep⟩
    exact (List.mem_insertionSort entryLE).mpr hes

/-! ### Lookup and classification lemmas -/

theorem lookupIdx_eq_none_iff (p : String) :
    ∀ idx, lookupIdx p idx = none ↔ p ∉ indexKeys idx
  | [] => by simp [lookupIdx, indexKeys]
  | (q, c) :: rest => by
    by_cases h : p = q <;>
      simp [lookupIdx, indexKeys, h, lookupIdx_eq_none_iff p rest]

theorem mem_indexKeys_of_lookup {p : String} {idx : List (String × List Nat)}
    {c : List Nat} (h : lookupIdx p idx = some c) : p ∈ indexKeys idx := by
  by_contra hn
  rw [← lookupIdx_eq_none_iff] at hn
  rw [h] at hn
  exact Option.noConfusion hn

theorem mem_allPaths_iff (aIdx bIdx : List (String × List Nat)) (p : String) :
    p ∈ allPaths aIdx bIdx ↔ p ∈ indexKeys aIdx ∨ p ∈ indexKeys bIdx := by
  unfold allPaths
  rw [List.mem_dedup, List.mem_append]

theorem classify_eq_added_iff (h : List Nat → List Nat)
    (aIdx bIdx : List (String × List Nat)) (p : String) :
    classify h aIdx bIdx p = some DriftCat.added ↔ lookupIdx p aIdx = none := by
  unfold classify
  cases ha : lookupIdx p aIdx with
  | none => simp
  | some ca =>
    cases hb : lookupIdx p bIdx with
    | none => simp
    | some cb =>
      by_cases hh : compute_file_hash h ca = compute_file_hash h cb <;> simp [hh]

theorem classify_eq_removed_iff (h : List Nat → List Nat)
    (aIdx bIdx : List (String × List Nat)) (p : String) :
    classify h aIdx bIdx p = some DriftCat.removed ↔
      (lookupIdx p aIdx ≠ none ∧ lookupIdx p bIdx = none) := by
  unfold classify
  cases ha : lookupIdx p aIdx with
  | none => simp
  | some ca =>
    cases hb : lookupIdx p bIdx with
    | none => simp
    | some cb =>
      by_cases hh : compute_file_hash h ca = compute_file_hash h cb <;> simp [hh]

theorem classify_eq_modified_iff (h : List Nat → List Nat)
    (aIdx bIdx : List (String × List Nat)) (p : String) :
    classify h aIdx bIdx p = some DriftCat.modified ↔
      (∃ ca cb, lookupIdx p aIdx = some ca ∧ lookupIdx p bIdx = some cb ∧
        compute_file_hash h ca ≠ compute_file_hash h cb) := by
  unfold classify
  cases ha : lookupIdx p aIdx with
  | none => simp
  | some ca =>
    cases hb : lookupIdx p bIdx with
    | none => simp
    | some cb =>
      by_cases hh : compute_file_hash h ca = compute_file_hash h cb <;> simp [hh]

theorem classify_eq_none_iff (h : List Nat → List Nat)
    (aIdx bIdx : List (String × List Nat)) (p : String) :
    classify h aIdx bIdx p = none ↔
      (∃ ca cb, lookupIdx p aIdx = some ca ∧ lookupIdx p bIdx = some cb ∧
        compute_file_hash h ca = compute_file_hash h cb) := by
  unfold classify
  cases ha : lookupIdx p aIdx with
  | none => simp
  | some ca =>
    cases hb : lookupIdx p bIdx with
    | none => simp
    | some cb =>
      by_cases hh : compute_file_hash h ca = compute_file_hash h cb <;> simp [hh]

/-- Membership in the drift report, reduced to the loop body. -/
theorem mem_events_iff (h : List Nat → List Nat)
    (rootA : List String) (esA : List (Entry (List Nat)))
    (rootB : List String) (esB : List (Entry (List Nat)))
    (p : String) (cat : DriftCat) :
    (p, cat) ∈ file_by_file_events h rootA esA rootB esB ↔
      (p ∈ allPaths (buildIndex rootA esA) (buildIndex rootB esB) ∧
        classify h (buildIndex rootA esA) (buildIndex rootB esB) p = some cat) := by
  unfold file_by_file_events
  rw [List.mem_filterMap]
  constructor
  · rintro ⟨q, hq, hcl⟩
    cases hc : classify h (buildIndex rootA esA) (buildIndex rootB esB) q with
    | none => rw [hc] at hcl; exact Option.noConfusion hcl
    | some c =>
      rw [hc] at hcl
      have hpair : (q, c) = (p, cat) := Option.some.inj hcl
      have hqp : q = p := congrArg Prod.fst hpair
      have hcc : c = cat := congrArg Prod.snd hpair
      subst hqp
      subst hcc
      exact ⟨hq, hc⟩
  · rintro ⟨hmem, hcl⟩
    exact ⟨p, hmem, by rw [hcl]; rfl⟩

/-! ### Clean roots -/

/-- When no segment of the root's own path is an ignored directory name, the
enumeration filter of `compute_dir_hash` agrees with the PathFilter of the
spec, which inspects the relative path only. -/
theorem includeEntry_clean_root {γ : Type} (root : List String) (e : Entry γ)
    (hroot : root.all (fun part => !ignore_dirs.contains part) = true) :
    includeEntry root e = (e.isFile && specInclude e.path) := by
  unfold includeEntry specInclude hasIgnoredDir
  rw [List.any_append]
  have hr : root.any (fun part => ignore_dirs.contains part) = false := by
    rw [List.any_eq_false]
    intro x hx
    have hc := List.all_eq_true.mp hroot x hx
    simp only [Bool.not_eq_true'] at hc
    simpa using hc
  rw [hr]
  simp only [Bool.false_or]
  cases hf : e.isFile <;>
    cases hd : (splitParts e.path).any (fun part => ignore_dirs.contains part) <;>
      cases hnm : nameIgnored e.path <;> simp

/-! ### Claims about the tree digest -/

/-- C1 (amended): for every root directory whose own path contains no
ignore-directories segment, the tree digest equals the hash of the byte stream
obtained by taking the regular files that survive the ignore filter, ordering
them lexicographically by relative path, and concatenating, for each file in
that order, the UTF-8 bytes of its relative path followed by the file's full
byte contents. -/
theorem tree_digest_matches_spec_stream (h : List Nat → List Nat)
    (root : List String) (es : List (Entry (List Nat)))
    (hroot : root.all (fun part => !ignore_dirs.contains part) = true) :
    compute_dir_hash h root es = h (specTreeStream es) := by
  unfold compute_dir_hash specTreeStream
  rw [dirHashStream_eq, sortEntries_filter]
  have hfilter : es.filter (includeEntry root)
      = es.filter (fun e => e.isFile && specInclude e.path) :=
    List.filter_congr (fun e _ => includeEntry_clean_root root e hroot)
  rw [hfilter]

/-- Witness for C1's theorem at a concrete clean root and a one-file tree. -/
theorem tree_digest_matches_spec_stream_witness :
    compute_dir_hash id ["home", "user"] [⟨"a", true, [5]⟩]
      = id (specTreeStream [⟨"a", true, [5]⟩]) :=
  tree_digest_matches_spec_stream id ["home", "user"] [⟨"a", true, [5]⟩] (by decide)

/-- C1 as stated is false: a root whose own path contains an ignored
directory segment (here a tree rooted below a directory named ".git") hashes
no file at all, while the spec's stream still contains the surviving regular
file "f". -/
theorem tree_digest_spec_stream_counterexample :
    compute_dir_hash id [".git"] [⟨"f", true, [120]⟩]
      ≠ id (specTreeStream [⟨"f", true, [120]⟩]) := by
  decide

/-- C3 (amended): two byte-for-byte and structurally identical trees (the same
entries, in any enumeration order, with distinct relative paths) have the same
tree digest at any two mount points, provided neither root's own path contains
an ignore-directories segment. -/
theorem identical_trees_equal_digest (h : List Nat → List Nat)
    (root1 root2 : List String) (es1 es2 : List (Entry (List Nat)))
    (hperm : es1.Perm es2)
    (hnodup : (es1.map Entry.path).Nodup)
    (hr1 : root1.all (fun part => !ignore_dirs.contains part) = true)
    (hr2 : root2.all (fun part => !ignore_dirs.contains part) = true) :
    compute_dir_hash h root1 es1 = compute_dir_hash h root2 es2 := by
  unfold compute_dir_hash
  rw [dirHashStream_eq, dirHashStream_eq, sortEntries_filter, sortEntries_filter]
  have hf1 : es1.filter (includeEntry root1)
      = es1.filter (fun e => e.isFile && specInclude e.path) :=
    List.filter_congr (fun e _ => includeEntry_clean_root root1 e hr1)
  have hf2 : es2.filter (includeEntry root2)
      = es2.filter (fun e => e.isFile && specInclude e.path) :=
    List.filter_congr (fun e _ => includeEntry_clean_root root2 e hr2)
  rw [hf1, hf2]
  have hfp : (es1.filter (fun e => e.isFile && specInclude e.path)).Perm
      (es2.filter (fun e => e.isFile && specInclude e.path)) :=
    hperm.filter _
  have hsorteq : sortEntries (es1.filter (fun e => e.isFile && specInclude e.path))
      = sortEntries (es2.filter (fun e => e.isFile && specInclude e.path)) := by
    apply sorted_perm_nodup_eq
    · exact ((List.perm_insertionSort entryLE _).trans hfp).trans
        (List.perm_insertionSort entryLE _).symm
    · exact List.sorted_insertionSort entryLE _
    · exact List.sorted_insertionSort entryLE _
    · have hsub : (es1.filter (fun e => e.isFile && specInclude e.path)).Sublist es1 :=
        List.filter_sublist es1
      have hnd : ((es1.filter (fun e => e.isFile && specInclude e.path)).map
          Entry.path).Nodup :=
        hnodup.sublist (hsub.map Entry.path)
      exact ((List.perm_insertionSort entryLE _).map Entry.path).nodup_iff.mpr hnd
  rw [hsorteq]

/-- Witness for C3's theorem: the same two files enumerated in swapped order
under two different mount points. -/
theorem identical_trees_equal_digest_witness :
    compute_dir_hash id ["home", "user"] [⟨"a", true, [1]⟩, ⟨"b", true, [2]⟩]
      = compute_dir_hash id ["mnt", "backup"] [⟨"b", true, [2]⟩, ⟨"a", true, [1]⟩] :=
  identical_trees_equal_digest id ["home", "user"] ["mnt", "backup"]
    [⟨"a", true, [1]⟩, ⟨"b", true, [2]⟩] [⟨"b", true, [2]⟩, ⟨"a", true, [1]⟩]
    (by decide) (by decide) (by decide) (by decide)

/-- C3 as stated is false: the same one-file tree mounted at ".git" and at
"home" yields different digests, because the directory-ignore check also sees
the segments of the absolute root path. -/
theorem identical_trees_digest_root_counterexample :
    compute_dir_hash id [".git"] [⟨"f", true, [120]⟩]
      ≠ compute_dir_hash id ["home"] [⟨"f", true, [120]⟩] := by
  decide

/-- C7: a tree in which no entry passes the filter digests to the hash of zero
bytes of input, and any two such trees have equal digests. -/
theorem empty_filter_digest (h : List Nat → List Nat)
    (root1 root2 : List String) (es1 es2 : List (Entry (List Nat)))
    (h1 : ∀ e ∈ es1, includeEntry root1 e = false)
    (h2 : ∀ e ∈ es2, includeEntry root2 e = false) :
    compute_dir_hash h root1 es1 = h [] ∧ compute_dir_hash h root2 es2 = h [] ∧
      compute_dir_hash h root1 es1 = compute_dir_hash h root2 es2 := by
  have g : ∀ (root : List String) (es : List (Entry (List Nat))),
      (∀ e ∈ es, includeEntry root e = false) → compute_dir_hash h root es = h [] := by
    intro root es hall
    unfold compute_dir_hash
    rw [dirHashStream_eq]
    have hnil : (sortEntries es).filter (includeEntry root) = [] := by
      rw [List.filter_eq_nil_iff]
      intro e he
      have hmem : e ∈ es := (List.mem_insertionSort entryLE).mp he
      simp [hall e hmem]
    rw [hnil]
    rfl
  exact ⟨g root1 es1 h1, g root2 es2 h2, (g root1 es1 h1).trans (g root2 es2 h2).symm⟩

/-- Witness for C7's theorem: a tree holding only a ".gitignore" file against
the empty tree. -/
theorem empty_filter_digest_witness :
    compute_dir_hash id [] [⟨".gitignore", true, [104]⟩] = id [] ∧
      compute_dir_hash id [] ([] : List (Entry (List Nat))) = id [] ∧
      compute_dir_hash id [] [⟨".gitignore", true, [104]⟩]
        = compute_dir_hash id [] ([] : List (Entry (List Nat))) :=
  empty_filter_digest id [] [] [⟨".gitignore", true, [104]⟩] [] (by decide) (by decide)

/-- C8: appending entries whose final name is an ignored file name, or whose
relative path contains an ignored directory segment (an ignored directory and
everything nested under it), leaves the tree digest unchanged. -/
theorem ignored_additions_preserve_digest (h : List Nat → List Nat)
    (root : List String) (es added : List (Entry (List Nat)))
    (hadd : ∀ e ∈ added, nameIgnored e.path = true ∨
      (splitParts e.path).any (fun part => ignore_dirs.contains part) = true) :
    compute_dir_hash h root (es ++ added) = compute_dir_hash h root es := by
  unfold compute_dir_hash
  rw [dirHashStream_eq, dirHashStream_eq, sortEntries_filter, sortEntries_filter]
  have hx : (es ++ added).filter (includeEntry root) = es.filter (includeEntry root) := by
    rw [List.filter_append]
    have hnil : added.filter (includeEntry root) = [] := by
      rw [List.filter_eq_nil_iff]
      intro e he
      rcases hadd e he with hname | hdir
      · unfold includeEntry
        simp [hname]
      · unfold includeEntry hasIgnoredDir
        rw [List.any_append, hdir, Bool.or_true]
        simp
    rw [hnil, List.append_nil]
  rw [hx]

/-- Witness for C8's theorem: adding a ".gitignore" file plus a ".git"
directory with a nested file to a one-file tree. -/
theorem ignored_additions_preserve_digest_witness :
    compute_dir_hash id [] ([⟨"a", true, [1]⟩] ++
        [⟨".gitignore", true, [2]⟩, ⟨".git", false, []⟩, ⟨".git/config", true, [3]⟩])
      = compute_dir_hash id [] [⟨"a", true, [1]⟩] :=
  ignored_additions_preserve_digest id [] [⟨"a", true, [1]⟩]
    [⟨".gitignore", true, [2]⟩, ⟨".git", false, []⟩, ⟨".git/config", true, [3]⟩]
    (by decide)

/-- C2 (amended): renaming one included regular file to a different included
relative path whose UTF-8 encoding has a different byte length changes the
tree digest (for any hash that is injective, the absorbed streams differing
in length). -/
theorem rename_changes_tree_digest (h : List Nat → List Nat)
    (hinj : Function.Injective h)
    (root : List String) (l1 l2 : List (Entry (List Nat)))
    (p q : String) (c : List Nat)
    (hincp : includeEntry root (⟨p, true, c⟩ : Entry (List Nat)) = true)
    (hincq : includeEntry root (⟨q, true, c⟩ : Entry (List Nat)) = true)
    (hlen : (utf8Bytes q).length ≠ (utf8Bytes p).length) :
    compute_dir_hash h root (l1 ++ ⟨q, true, c⟩ :: l2)
      ≠ compute_dir_hash h root (l1 ++ ⟨p, true, c⟩ :: l2) := by
  intro heq
  have hstream := hinj heq
  have hl := congrArg List.length hstream
  rw [dirHashStream_length, dirHashStream_length, List.filter_append,
    List.filter_append, List.filter_cons_of_pos hincq, List.filter_cons_of_pos hincp,
    List.map_append, List.map_append, List.sum_append, List.sum_append,
    List.map_cons, List.map_cons, List.sum_cons, List.sum_cons] at hl
  simp only at hl
  omega

/-- Witness for C2's theorem: renaming "a" to "ab" (different UTF-8 length)
next to an unchanged file "z". -/
theorem rename_changes_tree_digest_witness :
    compute_dir_hash id [] ([] ++ (⟨"ab", true, [7]⟩ : Entry (List Nat)) :: [⟨"z", true, [9]⟩])
      ≠ compute_dir_hash id [] ([] ++ (⟨"a", true, [7]⟩ : Entry (List Nat)) :: [⟨"z", true, [9]⟩]) :=
  rename_changes_tree_digest id (fun _ _ hh => hh) [] [] [⟨"z", true, [9]⟩] "a" "ab" [7]
    (by decide) (by decide) (by decide)

/-- C2 as stated is false: in the tree with empty files "aba" and "ba",
renaming "ba" to "ab" (byte content unchanged, "aba" untouched) leaves the
whole absorbed byte stream equal to the bytes of "ababa", because path bytes
and content bytes are concatenated with no separator; hence the digest is
unchanged for every hash function, including SHA-256. -/
theorem rename_preserves_tree_digest_counterexample :
    "ba" ≠ "ab" ∧
      includeEntry [] (⟨"ba", true, []⟩ : Entry (List Nat)) = true ∧
      includeEntry [] (⟨"ab", true, []⟩ : Entry (List Nat)) = true ∧
      compute_dir_hash id [] [⟨"aba", true, []⟩, ⟨"ba", true, []⟩]
        = compute_dir_hash id [] [⟨"aba", true, []⟩, ⟨"ab", true, []⟩] := by
  refine ⟨by decide, by decide, by decide, by decide⟩

/-! ### Claim about error propagation -/

theorem dirAbsorbE_error (root : List String) :
    ∀ (l : List (Entry (Option (List Nat)))) (acc : List Nat),
      (∃ e ∈ l, includeEntry root e = true ∧ e.content = none) →
      dirAbsorbE root l acc = Except.error ()
  | [], _, hbad => by
    rcases hbad with ⟨e, he, _⟩
    exact absurd he (List.not_mem_nil e)
  | e :: rest, acc, hbad => by
    unfold dirAbsorbE
    rcases hbad with ⟨f, hf, hfincl, hfnone⟩
    rcases List.mem_cons.mp hf with hfe | hfrest
    · subst hfe
      rcases Bool.and_eq_true_iff.mp hfincl with ⟨hig', hff⟩
      have hig : hasIgnoredDir (root ++ splitParts f.path) = false := by
        cases hx : hasIgnoredDir (root ++ splitParts f.path)
        · rfl
        · rw [hx] at hig'
          exact absurd hig' (by decide)
      rw [hig]
      simp only [Bool.false_eq_true, if_false, hff, if_true]
      rw [hfnone]
    · have hrest : ∃ e ∈ rest, includeEntry root e = true ∧ e.content = none :=
        ⟨f, hfrest, hfincl, hfnone⟩
      by_cases hig : hasIgnoredDir (root ++ splitParts e.path) = true
      · rw [hig]
        simp only [if_true]
        exact dirAbsorbE_error root rest acc hrest
      · have higf : hasIgnoredDir (root ++ splitParts e.path) = false := by
          cases hx : hasIgnoredDir (root ++ splitParts e.path)
          · rfl
          · exact absurd hx hig
        rw [higf]
        simp only [Bool.false_eq_true, if_false]
        by_cases hff : (e.isFile && !nameIgnored e.path) = true
        · rw [hff]
          simp only [if_true]
          cases hc : e.content with
          | none => rfl
          | some cc => exact dirAbsorbE_error root rest _ hrest
        · have hfff : (e.isFile && !nameIgnored e.path) = false := by
            cases hx : (e.isFile && !nameIgnored e.path)
            · rfl
            · exact absurd hx hff
          rw [hfff]
          simp only [Bool.false_eq_true, if_false]
          exact dirAbsorbE_error root rest acc hrest

/-- C6: an included file that cannot be opened or read makes the whole tree
digest fail with the propagated error — no digest value is produced — and the
single-file digest of an unreadable file fails the same way. -/
theorem unreadable_file_aborts_digest (h : List Nat → List Nat)
    (root : List String) (es : List (Entry (Option (List Nat))))
    (hbad : ∃ e ∈ es, includeEntry root e = true ∧ e.content = none) :
    compute_dir_hashE h root es = Except.error () ∧
      compute_file_hashE h none = Except.error () := by
  constructor
  · unfold compute_dir_hashE
    have hmem : ∃ e ∈ sortEntries es, includeEntry root e = true ∧ e.content = none := by
      obtain ⟨e, he, hprop⟩ := hbad
      exact ⟨e, (List.mem_insertionSort entryLE).mpr he, hprop⟩
    rw [dirAbsorbE_error root (sortEntries es) [] hmem]
    rfl
  · rfl

/-- Witness for C6's theorem: a one-file tree whose file is unreadable. -/
theorem unreadable_file_aborts_digest_witness :
    compute_dir_hashE id [] [⟨"f", true, none⟩] = Except.error () ∧
      compute_file_hashE id none = Except.error () :=
  unreadable_file_aborts_digest id [] [⟨"f", true, none⟩]
    ⟨⟨"f", true, none⟩, by decide, by decide, rfl⟩

/-! ### Claims about the granular comparison -/

theorem mem_indexKeys_of_lookup_ne_none {p : String} {idx : List (String × List Nat)}
    (h : lookupIdx p idx ≠ none) : p ∈ indexKeys idx := by
  by_contra hn
  exact h ((lookupIdx_eq_none_iff p idx).mpr hn)

/-- C4: every path in the union of the two index key sets is classified into
at most one category; Added exactly when the path is a key of the target index
only, Removed exactly when a key of the source index only, Modified exactly
when both lookups succeed with differing per-file digests; both lookups
succeeding with equal digests yields no report. -/
theorem drift_report_partition (h : List Nat → List Nat)
    (rootA : List String) (esA : List (Entry (List Nat)))
    (rootB : List String) (esB : List (Entry (List Nat)))
    (p : String) :
    ((p, DriftCat.added) ∈ file_by_file_events h rootA esA rootB esB ↔
      (p ∈ indexKeys (buildIndex rootB esB) ∧ p ∉ indexKeys (buildIndex rootA esA))) ∧
    ((p, DriftCat.removed) ∈ file_by_file_events h rootA esA rootB esB ↔
      (p ∈ indexKeys (buildIndex rootA esA) ∧ p ∉ indexKeys (buildIndex rootB esB))) ∧
    ((p, DriftCat.modified) ∈ file_by_file_events h rootA esA rootB esB ↔
      (∃ ca cb, lookupIdx p (buildIndex rootA esA) = some ca ∧
        lookupIdx p (buildIndex rootB esB) = some cb ∧
        compute_file_hash h ca ≠ compute_file_hash h cb)) ∧
    (∀ ca cb, lookupIdx p (buildIndex rootA esA) = some ca →
      lookupIdx p (buildIndex rootB esB) = some cb →
      compute_file_hash h ca = compute_file_hash h cb →
      ∀ cat, (p, cat) ∉ file_by_file_events h rootA esA rootB esB) ∧
    (∀ cat1 cat2, (p, cat1) ∈ file_by_file_events h rootA esA rootB esB →
      (p, cat2) ∈ file_by_file_events h rootA esA rootB esB → cat1 = cat2) := by
  refine ⟨?_, ?_, ?_, ?_, ?_⟩
  · rw [mem_events_iff, classify_eq_added_iff, lookupIdx_eq_none_iff, mem_allPaths_iff]
    tauto
  · rw [mem_events_iff, classify_eq_removed_iff, lookupIdx_eq_none_iff, mem_allPaths_iff]
    constructor
    · rintro ⟨_, hne, hnb⟩
      exact ⟨mem_indexKeys_of_lookup_ne_none hne, hnb⟩
    · rintro ⟨ha, hb⟩
      refine ⟨Or.inl ha, ?_, hb⟩
      intro hnone
      exact ((lookupIdx_eq_none_iff p _).mp hnone) ha
  · rw [mem_events_iff, classify_eq_modified_iff, mem_allPaths_iff]
    constructor
    · rintro ⟨_, hmod⟩
      exact hmod
    · rintro ⟨ca, cb, hca, hcb, hne⟩
      exact ⟨Or.inl (mem_indexKeys_of_lookup hca), ca, cb, hca, hcb, hne⟩
  · intro ca cb hca hcb heq cat hmem
    rcases (mem_events_iff h rootA esA rootB esB p cat).mp hmem with ⟨_, hcl⟩
    have hnone : classify h (buildIndex rootA esA) (buildIndex rootB esB) p = none :=
      (classify_eq_none_iff h _ _ p).mpr ⟨ca, cb, hca, hcb, heq⟩
    rw [hnone] at hcl
    exact Option.noConfusion hcl
  · intro cat1 cat2 h1 h2
    rcases (mem_events_iff h rootA esA rootB esB p cat1).mp h1 with ⟨_, hcl1⟩
    rcases (mem_events_iff h rootA esA rootB esB p cat2).mp h2 with ⟨_, hcl2⟩
    rw [hcl1] at hcl2
    exact Option.some.inj hcl2

/-- C9: swapping the two trees swaps the Added and Removed classifications and
preserves the Modified classification, path by path. -/
theorem drift_report_symmetry (h : List Nat → List Nat)
    (rootA : List String) (esA : List (Entry (List Nat)))
    (rootB : List String) (esB : List (Entry (List Nat)))
    (p : String) :
    ((p, DriftCat.added) ∈ file_by_file_events h rootA esA rootB esB ↔
      (p, DriftCat.removed) ∈ file_by_file_events h rootB esB rootA esA) ∧
    ((p, DriftCat.removed) ∈ file_by_file_events h rootA esA rootB esB ↔
      (p, DriftCat.added) ∈ file_by_file_events h rootB esB rootA esA) ∧
    ((p, DriftCat.modified) ∈ file_by_file_events h rootA esA rootB esB ↔
      (p, DriftCat.modified) ∈ file_by_file_events h rootB esB rootA esA) := by
  refine ⟨?_, ?_, ?_⟩
  · rw [mem_events_iff, mem_events_iff, classify_eq_added_iff, classify_eq_removed_iff,
      mem_allPaths_iff, mem_allPaths_iff, lookupIdx_eq_none_iff]
    constructor
    · rintro ⟨hor, hna⟩
      have hb : p ∈ indexKeys (buildIndex rootB esB) := by tauto
      refine ⟨Or.inl hb, ?_, hna⟩
      intro hnone
      exact ((lookupIdx_eq_none_iff p _).mp hnone) hb
    · rintro ⟨hor, hne, hnone⟩
      have hb : p ∈ indexKeys (buildIndex rootB esB) :=
        mem_indexKeys_of_lookup_ne_none hne
      exact ⟨Or.inr hb, hnone⟩
  · rw [mem_events_iff, mem_events_iff, classify_eq_removed_iff, classify_eq_added_iff,
      mem_allPaths_iff, mem_allPaths_iff, lookupIdx_eq_none_iff]
    constructor
    · rintro ⟨hor, hne, hnone⟩
      have ha : p ∈ indexKeys (buildIndex rootA esA) :=
        mem_indexKeys_of_lookup_ne_none hne
      exact ⟨Or.inr ha, hnone⟩
    · rintro ⟨hor, hnone⟩
      have ha : p ∈ indexKeys (buildIndex rootA esA) := by tauto
      refine ⟨Or.inl ha, ?_, hnone⟩
      intro hn
      exact ((lookupIdx_eq_none_iff p _).mp hn) ha
  · rw [mem_events_iff, mem_events_iff, classify_eq_modified_iff, classify_eq_modified_iff,
      mem_allPaths_iff, mem_allPaths_iff]
    constructor
    · rintro ⟨_, ca, cb, hca, hcb, hne⟩
      exact ⟨Or.inl (mem_indexKeys_of_lookup hcb), cb, ca, hcb, hca, hne.symm⟩
    · rintro ⟨_, cb, ca, hcb, hca, hne⟩
      exact ⟨Or.inl (mem_indexKeys_of_lookup hca), ca, cb, hca, hcb, hne.symm⟩

/-- C5 (amended): a path that is an included regular file of the source tree
but exists in the target tree only as a non-file (for example a directory) is
classified Removed — not Modified — because only regular files enter the
index, so the path has no target-side entry and no byte comparison occurs. -/
theorem file_vs_nonfile_removed (h : List Nat → List Nat)
    (rootA : List String) (esA : List (Entry (List Nat)))
    (rootB : List String) (esB : List (Entry (List Nat)))
    (p : String)
    (hA : p ∈ indexKeys (buildIndex rootA esA))
    (hB : ∀ e ∈ esB, e.path = p → e.isFile = false) :
    (p, DriftCat.removed) ∈ file_by_file_events h rootA esA rootB esB ∧
      (p, DriftCat.modified) ∉ file_by_file_events h rootA esA rootB esB ∧
      p ∉ indexKeys (buildIndex rootB esB) := by
  have hkB : p ∉ indexKeys (buildIndex rootB esB) := by
    rw [mem_indexKeys_iff]
    rintro ⟨e, he, hep, hinc⟩
    have hfile := includeEntry_isFile hinc
    rw [hB e he hep] at hfile
    exact Bool.noConfusion hfile
  refine ⟨?_, ?_, hkB⟩
  · rw [mem_events_iff, classify_eq_removed_iff, mem_allPaths_iff]
    refine ⟨Or.inl hA, ?_, (lookupIdx_eq_none_iff p _).mpr hkB⟩
    intro hnone
    exact ((lookupIdx_eq_none_iff p _).mp hnone) hA
  · intro hmem
    rcases (mem_events_iff h rootA esA rootB esB p DriftCat.modified).mp hmem with ⟨_, hcl⟩
    rcases (classify_eq_modified_iff h _ _ p).mp hcl with ⟨ca, cb, _, hcb, _⟩
    exact hkB (mem_indexKeys_of_lookup hcb)

/-- Witness for C5's theorem: source has the regular file "p", target has "p"
only as a directory (holding a nested file "p/x"). -/
theorem file_vs_nonfile_removed_witness :
    ("p", DriftCat.removed) ∈ file_by_file_events id [] [⟨"p", true, [1]⟩] []
        [⟨"p", false, []⟩, ⟨"p/x", true, [2]⟩] ∧
      ("p", DriftCat.modified) ∉ file_by_file_events id [] [⟨"p", true, [1]⟩] []
        [⟨"p", false, []⟩, ⟨"p/x", true, [2]⟩] ∧
      "p" ∉ indexKeys (buildIndex [] [⟨"p", false, []⟩, ⟨"p/x", true, [2]⟩]) :=
  file_vs_nonfile_removed id [] [⟨"p", true, [1]⟩] []
    [⟨"p", false, []⟩, ⟨"p/x", true, [2]⟩] "p" (by decide) (by decide)

/-- C5 as stated is false: in the scenario above the code reports "p" as a
deleted file (Removed), never as Modified. -/
theorem file_vs_nonfile_modified_counterexample :
    ("p", DriftCat.modified) ∉ file_by_file_events id [] [⟨"p", true, [1]⟩] []
        [⟨"p", false, []⟩, ⟨"p/x", true, [2]⟩] ∧
      ("p", DriftCat.removed) ∈ file_by_file_events id [] [⟨"p", true, [1]⟩] []
        [⟨"p", false, []⟩, ⟨"p/x", true, [2]⟩] := by
  refine ⟨by decide, by decide⟩

/-! ### Claim about the CLI gating of per-file diffs -/

/-- C10: in directory mode a per-file diff is rendered only when the verbose
flag and the diff flag are both set and the two tree digests differ; in
particular the diff flag alone never invokes the renderer. -/
theorem diff_rendered_only_verbose_diff_drift (h : List Nat → List Nat)
    (verbose diffFlag : Bool)
    (rootA : List String) (esA : List (Entry (List Nat)))
    (rootB : List String) (esB : List (Entry (List Nat)))
    (p : String)
    (hp : p ∈ main_dir_renders h verbose diffFlag rootA esA rootB esB) :
    verbose = true ∧ diffFlag = true ∧
      compute_dir_hash h rootA esA ≠ compute_dir_hash h rootB esB := by
  unfold main_dir_renders at hp
  by_cases hdig : compute_dir_hash h rootA esA = compute_dir_hash h rootB esB
  · rw [if_pos hdig] at hp
    exact absurd hp (List.not_mem_nil p)
  · rw [if_neg hdig] at hp
    cases hv : verbose with
    | false =>
      rw [hv] at hp
      simp only [Bool.false_eq_true, if_false] at hp
      exact absurd hp (List.not_mem_nil p)
    | true =>
      rw [hv] at hp
      simp only [if_true] at hp
      refine ⟨rfl, ?_, hdig⟩
      cases hd : diffFlag with
      | true => rfl
      | false =>
        rw [hd] at hp
        unfold file_by_file_renders at hp
        rw [List.mem_filterMap] at hp
        obtain ⟨q, _, hcl⟩ := hp
        rcases hcq : classify h (buildIndex rootA esA) (buildIndex rootB esB) q with _ | cat
        · rw [hcq] at hcl
          exact Option.noConfusion hcl
        · rw [hcq] at hcl
          cases cat <;> simp at hcl

/-- Witness for C10's theorem: drifted one-file trees with both flags set
render the diff of "a". -/
theorem diff_rendered_only_verbose_diff_drift_witness :
    true = true ∧ true = true ∧
      compute_dir_hash id [] [⟨"a", true, [1]⟩] ≠ compute_dir_hash id [] [⟨"a", true, [2]⟩] :=
  diff_rendered_only_verbose_diff_drift id true true [] [⟨"a", true, [1]⟩]
    [] [⟨"a", true, [2]⟩] "a" (by decide)

end HashDiff
